import Mathlib

/-!
Shallow embedding of the `dirchanges` snapshot-diffing engine
(`watcher.go`) and proofs about it.

Modelling conventions:
* Go maps (`map[string]os.FileInfo`, `map[string]bool`, …) are embedded as
  association lists with unique keys; Go's unspecified map iteration order
  is determinized to list order.
* `os.FileInfo` is the record `FileInfo` below; `time.Time` and
  `os.FileMode` become `Nat` (the code only compares them with `!=`), and
  the opaque system identity (device+inode, `Sys()`) becomes the `ident`
  field.
* The filesystem is an association list from an absolute path to the tree
  rooted there (`FS`); `os.Stat`/the root lstat of `filepath.Walk` is
  `statFS`.  Only existence failures are modelled (other I/O errors such
  as permission problems are out of scope of the claims).
* `filepath.Abs` is modelled as the identity: all paths handled here are
  assumed absolute and clean, on which `Abs` is the identity and cannot
  fail.
* Fallible Go functions return `Except WErr`.
-/

set_option autoImplicit false

namespace Dirchanges

/-- Embeds the `Op` constants of watcher.go (Create, Write, Remove,
Rename, Chmod, Move). -/
inductive Op where
  | Create
  | Write
  | Remove
  | Rename
  | Chmod
  | Move
deriving DecidableEq, Repr

/-- Embeds `os.FileInfo` as used by the watcher: base name, size, mode
bits, modification time, directory flag, and the opaque system identity
token (`Sys()`, e.g. device+inode) used by `sameFile`. -/
structure FileInfo where
  name : String
  size : Int
  mode : Nat
  modTime : Nat
  isDir : Bool
  ident : Nat
deriving DecidableEq, Repr

/-- Embeds the `Event` struct: operation, `Path`, `OldPath` and the
embedded `os.FileInfo`. -/
structure Event where
  op : Op
  path : String
  oldPath : String
  info : FileInfo
deriving DecidableEq, Repr

/-- Result of one `FilterFileHookFunc` call: `nil` / `ErrSkip` / any
other error. -/
inductive HookRes where
  | ok
  | skip
  | fail (msg : String)
deriving DecidableEq, Repr

/-- Embeds `FilterFileHookFunc`. -/
abbrev Hook : Type := FileInfo → String → HookRes

/-- Errors surfaced by the embedded operations. -/
inductive WErr where
  | notExist (path : String)
  | watchedFileDeleted
  | hookErr (msg : String)
deriving DecidableEq, Repr

/-- Embeds `map[string]os.FileInfo` as an association list (unique keys
by construction of the operations below). -/
abbrev FMap : Type := List (String × FileInfo)

/-- Go map read `m[k]`. -/
def fmLookup : FMap → String → Option FileInfo
  | [], _ => none
  | (k, v) :: rest, key => if k = key then some v else fmLookup rest key

/-- Go map write `m[k] = v` (updates in place or appends). -/
def fmInsert : FMap → String → FileInfo → FMap
  | [], k, v => [(k, v)]
  | (k', v') :: rest, k, v =>
    if k' = k then (k, v) :: rest else (k', v') :: fmInsert rest k v

/-- Go `delete(m, k)`. -/
def fmErase : FMap → String → FMap
  | [], _ => []
  | (k', v') :: rest, k =>
    if k' = k then fmErase rest k else (k', v') :: fmErase rest k

/-- Embeds `for k, v := range add { base[k] = v }`. -/
def fmMerge (base add : FMap) : FMap :=
  add.foldl (fun m kv => fmInsert m kv.1 kv.2) base

/-- Membership in a Go set-of-strings (`map[string]struct{}`). -/
def strMem : List String → String → Bool
  | [], _ => false
  | x :: xs, s => if x = s then true else strMem xs s

/-- Membership in the Go set `map[Op]struct{}`. -/
def opMem : List Op → Op → Bool
  | [], _ => false
  | x :: xs, o => if x = o then true else opMem xs o

/-- Assoc-list read for the `names` map (`map[string]bool`). -/
def nmLookup : List (String × Bool) → String → Option Bool
  | [], _ => none
  | (k, v) :: rest, key => if k = key then some v else nmLookup rest key

/-- Assoc-list write for the `names` map. -/
def nmInsert : List (String × Bool) → String → Bool → List (String × Bool)
  | [], k, v => [(k, v)]
  | (k', v') :: rest, k, v =>
    if k' = k then (k, v) :: rest else (k', v') :: nmInsert rest k v

/-- Go `delete(w.names, k)`. -/
def nmErase : List (String × Bool) → String → List (String × Bool)
  | [], _ => []
  | (k', v') :: rest, k =>
    if k' = k then nmErase rest k else (k', v') :: nmErase rest k

/-- Embeds `filepath.Dir` on clean paths: everything up to the final
slash; `"/a/b" ↦ "/a"`, `"/a" ↦ "/"`, a path without a slash maps to
`"."`. -/
def dirOf (p : String) : String :=
  match (p.data.reverse.dropWhile (fun c => c ≠ '/')) with
  | [] => "."
  | _ :: tail => if tail.isEmpty then "/" else String.mk tail.reverse

/-- Embeds `filepath.Base` on clean paths: the part after the final
slash. -/
def baseName (p : String) : String :=
  String.mk (p.data.reverse.takeWhile (fun c => c ≠ '/')).reverse

/-- Embeds `filepath.Join dir name` for a clean directory path and a bare
entry name. -/
def joinPath (d f : String) : String := d ++ "/" ++ f

/-- Character-by-character prefix test on char lists. -/
def pfxChars : List Char → List Char → Bool
  | [], _ => true
  | _ :: _, [] => false
  | c :: cs, d :: ds => if c = d then pfxChars cs ds else false

/-- Embeds Go's `strings.HasPrefix p s` (here: is `p` a prefix of
`s`). -/
def strHasPfx (p s : String) : Bool := pfxChars p.data s.data

/-- Modelled from the spec: `isHiddenFile` lives in a platform file that
is absent from src/; per the spec's filtering contract it holds when "the
base name starts with a dot". -/
def isHiddenFile (p : String) : Bool := strHasPfx "." (baseName p)

/-- Modelled from the spec: `sameFile` lives in a platform file that is
absent from src/; per the spec it is "equality of device+inode or
platform equivalent — NOT path or name equality", i.e. equality of the
opaque identity tokens. -/
def sameFile (a b : FileInfo) : Bool := a.ident = b.ident

/-- A filesystem subtree: a regular file, or a directory with its
children in directory-listing order. -/
inductive FSNode where
  | file (info : FileInfo)
  | dir (info : FileInfo) (children : List FSNode)

/-- The metadata of the node itself. -/
def FSNode.info : FSNode → FileInfo
  | .file i => i
  | .dir i _ => i

/-- The filesystem: association list from an absolute path to the subtree
rooted there.  The watcher only ever stats/walks its registered root
paths, so this is the whole interface it needs. -/
abbrev FS : Type := List (String × FSNode)

/-- Embeds `os.Stat` (and the root lstat of `filepath.Walk`) for the
paths the watcher queries. -/
def statFS : FS → String → Option FSNode
  | [], _ => none
  | (k, n) :: rest, p => if k = p then some n else statFS rest p

/-- Embeds the `Watcher` struct. -/
structure Watcher where
  ffh : List Hook
  names : List (String × Bool)
  files : FMap
  ignored : List String
  ops : List Op
  ignoreHidden : Bool

/-- Embeds `New()`: empty files, ignored and names; no hooks, no op
filter, hidden files not ignored. -/
def New : Watcher :=
  { ffh := [], names := [], files := [], ignored := [], ops := [],
    ignoreHidden := false }

/-- Embeds `AddFilterHook`. -/
def AddFilterHook (w : Watcher) (f : Hook) : Watcher :=
  { w with ffh := w.ffh ++ [f] }

/-- Embeds `IgnoreHiddenFiles`. -/
def IgnoreHiddenFiles (w : Watcher) (b : Bool) : Watcher :=
  { w with ignoreHidden := b }

/-- Embeds `FilterOps`: replaces the op set with the given kinds. -/
def FilterOps (w : Watcher) (l : List Op) : Watcher :=
  { w with ops := l }

/-- Runs the hook chain the way both listing loops do: the first `ErrSkip`
skips the entry, the first other error aborts. -/
def runHooks : List Hook → FileInfo → String → HookRes
  | [], _, _ => .ok
  | f :: fs, i, p =>
    match f i p with
    | .ok => runHooks fs i p
    | r => r

/-- The per-child body of the loop in `list` (watcher.go:164-189): skip if
ignored or hidden-and-policy-on, then run the hooks; `none` means the
child is skipped, `some (some e)` aborts the listing. -/
def listChild (w : Watcher) (dir : String) (c : FSNode) :
    Option (Option WErr × String × FileInfo) :=
  let path := joinPath dir c.info.name
  if strMem w.ignored path || (w.ignoreHidden && isHiddenFile path) then
    none
  else
    match runHooks w.ffh c.info path with
    | .skip => none
    | .fail m => some (some (.hookErr m), path, c.info)
    | .ok => some (none, path, c.info)

/-- The child loop of `list`. -/
def listChildren (w : Watcher) (dir : String) :
    List FSNode → FMap → Except WErr FMap
  | [], acc => .ok acc
  | c :: cs, acc =>
    match listChild w dir c with
    | none => listChildren w dir cs acc
    | some (some e, _, _) => .error e
    | some (none, path, i) => listChildren w dir cs (fmInsert acc path i)

/-- Whether a directory entry survives the child filtering of `list`:
not in the ignore set, not hidden under the policy, and not skipped by
the hook chain (hooks are only consulted when the first two tests
pass, mirroring the loop order at watcher.go:164-186). -/
def childOK (w : Watcher) (dir : String) (c : FSNode) : Bool :=
  let path := joinPath dir c.info.name
  !(strMem w.ignored path || (w.ignoreHidden && isHiddenFile path)) &&
    !(decide (runHooks w.ffh c.info path = HookRes.skip))

/-- Embeds `(*Watcher).list` (watcher.go:140-191): stat the name, record
it, and if it is a directory add its immediate children subject to the
ignore set, the hidden-file policy and the hooks. -/
def list (w : Watcher) (fs : FS) (name : String) : Except WErr FMap :=
  match statFS fs name with
  | none => .error (.notExist name)
  | some node =>
    let fileList : FMap := [(name, node.info)]
    match node with
    | .file _ => .ok fileList
    | .dir _ children => listChildren w name children fileList

/-- Signal produced by one `walkFn` invocation: continue, `SkipDir`, or
abort with an error. -/
inductive WalkSig where
  | cont
  | skipDir
  | abort (e : WErr)

/-- Embeds the `walkFn` closure of `listRecursive` (watcher.go:216-249):
hooks run first (a skip returns `nil`, i.e. `cont`, even for a
directory); then the ignore/hidden test returns `SkipDir` for directories
and `cont` for files; otherwise the entry is added. -/
def walkFn (w : Watcher) (path : String) (info : FileInfo) (acc : FMap) :
    FMap × WalkSig :=
  match runHooks w.ffh info path with
  | .fail m => (acc, .abort (.hookErr m))
  | .skip => (acc, .cont)
  | .ok =>
    if strMem w.ignored path || (w.ignoreHidden && isHiddenFile path) then
      if info.isDir then (acc, .skipDir) else (acc, .cont)
    else
      (fmInsert acc path info, .cont)

mutual

/-- Embeds `filepath.Walk`'s visit of one node: run `walkFn`, then (for a
directory not skipped) walk the children in order. -/
def walkTree (w : Watcher) (path : String) (node : FSNode) (acc : FMap) :
    Except WErr FMap :=
  match walkFn w path node.info acc with
  | (_, .abort e) => .error e
  | (acc1, .skipDir) => .ok acc1
  | (acc1, .cont) =>
    match node with
    | .file _ => .ok acc1
    | .dir _ children => walkChildren w path children acc1

/-- Walks the children of a directory in order, threading the
accumulated file list. -/
def walkChildren (w : Watcher) (dir : String) (cs : List FSNode)
    (acc : FMap) : Except WErr FMap :=
  match cs with
  | [] => .ok acc
  | c :: rest =>
    match walkTree w (joinPath dir c.info.name) c acc with
    | .error e => .error e
    | .ok acc1 => walkChildren w dir rest acc1

end

/-- Embeds `(*Watcher).listRecursive` (watcher.go:213-250): walk the tree
rooted at `name`; a missing root surfaces as the walk's root-lstat
`IsNotExist` error carrying that path. -/
def listRecursive (w : Watcher) (fs : FS) (name : String) :
    Except WErr FMap :=
  match statFS fs name with
  | none => .error (.notExist name)
  | some node => walkTree w name node []

/-- Embeds `(*Watcher).Remove` (watcher.go:253-283): drop the name from
`names`; if stored as a non-directory delete just it, if a directory also
delete the entries whose `filepath.Dir` equals the name.  The only error
source in the Go code is `filepath.Abs`, which cannot fail on the
absolute clean paths modelled here. -/
def Remove (w : Watcher) (name : String) : Except WErr Watcher :=
  let w1 := { w with names := nmErase w.names name }
  match fmLookup w1.files name with
  | none => .ok w1
  | some info =>
    if !info.isDir then
      .ok { w1 with files := fmErase w1.files name }
    else
      let files1 := fmErase w1.files name
      .ok { w1 with
            files := files1.filter (fun kv => !(dirOf kv.1 = name : Bool)) }

/-- Embeds `(*Watcher).RemoveRecursive` (watcher.go:287-315): drop the
name from `names`; if stored as a non-directory delete just it, if a
directory delete every entry whose key has the name as a *string* prefix
(`strings.HasPrefix`). -/
def RemoveRecursive (w : Watcher) (name : String) : Except WErr Watcher :=
  let w1 := { w with names := nmErase w.names name }
  match fmLookup w1.files name with
  | none => .ok w1
  | some info =>
    if !info.isDir then
      .ok { w1 with files := fmErase w1.files name }
    else
      .ok { w1 with
            files := w1.files.filter (fun kv => !(strHasPfx name kv.1)) }

/-- Embeds `(*Watcher).Ignore` (watcher.go:320-333): for each path first
`RemoveRecursive` it, then add it to the ignore set. -/
def Ignore (w : Watcher) (paths : List String) : Except WErr Watcher :=
  match paths with
  | [] => .ok w
  | p :: rest =>
    match RemoveRecursive w p with
    | .error e => .error e
    | .ok w1 => Ignore { w1 with ignored := w1.ignored ++ [p] } rest

/-- Embeds `(*Watcher).Add` (watcher.go:378-411): a name in the ignore
set, or hidden while the policy is on, returns with no change (the hook
chain is *not* consulted for the name itself); otherwise `list` it, merge
the result into `files` and record the name as non-recursive. -/
def Add (w : Watcher) (fs : FS) (name : String) : Except WErr Watcher :=
  if strMem w.ignored name || (w.ignoreHidden && isHiddenFile name) then
    .ok w
  else
    match list w fs name with
    | .error e => .error e
    | .ok fileList =>
      .ok { w with files := fmMerge w.files fileList,
                   names := nmInsert w.names name false }

/-- Embeds `(*Watcher).AddRecursive` (watcher.go:193-211). -/
def AddRecursive (w : Watcher) (fs : FS) (name : String) :
    Except WErr Watcher :=
  match listRecursive w fs name with
  | .error e => .error e
  | .ok fileList =>
    .ok { w with files := fmMerge w.files fileList,
                 names := nmInsert w.names name true }

/-- The loop body of `retrieveFileList` (watcher.go:420-450) over the
remaining `names` entries.  On a not-exist error whose path equals the
watched name the Go code returns `ErrWatchedFileDeleted` at
watcher.go:426/438; the `w.RemoveRecursive(name)` / `w.Remove(name)`
statements at watcher.go:427/439 sit *after* that `return` and are
unreachable, so the watcher is returned unchanged.  (A not-exist error
for a different path is swallowed by the Go code; in this model every
not-exist error carries the root name, so that branch is inert.) -/
def retrieveGo (w : Watcher) (fs : FS) :
    List (String × Bool) → FMap → Except WErr FMap × Watcher
  | [], acc => (.ok acc, w)
  | (name, recursive) :: rest, acc =>
    let r := if recursive then listRecursive w fs name else list w fs name
    match r with
    | .error (.notExist p) =>
      if p = name then (.error .watchedFileDeleted, w)
      else retrieveGo w fs rest acc
    | .error e => (.error e, w)
    | .ok l => retrieveGo w fs rest (fmMerge acc l)

/-- Embeds `(*Watcher).retrieveFileList` (watcher.go:413-453).  The
returned `Watcher` makes the method's (absent) writes to its receiver
explicit. -/
def retrieveFileList (w : Watcher) (fs : FS) : Except WErr FMap × Watcher :=
  retrieveGo w fs w.names []

/-- Builds the Rename/Move event of watcher.go:501-511 for a matched
(removed, created) pair: a Rename when both paths have the same parent
directory, a Move otherwise; `Path` is the created path, `OldPath` the
removed path, the metadata is the removed (pre-move) metadata. -/
def mkCorr (p1 : String) (i1 : FileInfo) (p2 : String) : Event :=
  { op := if dirOf p1 = dirOf p2 then .Rename else .Move,
    path := p2, oldPath := p1, info := i1 }

/-- The inner loop of the rename/move correlation (watcher.go:499-519)
for one removed candidate `(p1, i1)`: every created candidate it
`sameFile`-matches is turned into an event and deleted from `creates`;
the rest of `creates` is kept. -/
def innerLoop (p1 : String) (i1 : FileInfo) :
    FMap → List Event × FMap
  | [] => ([], [])
  | (p2, i2) :: rest =>
    let (es, rest') := innerLoop p1 i1 rest
    if sameFile i1 i2 then (mkCorr p1 i1 p2 :: es, rest')
    else (es, (p2, i2) :: rest')

/-- The outer loop of the rename/move correlation (watcher.go:498-520):
each removed candidate scans the current `creates`; a candidate that
matched at least once is deleted from `removes` (the `delete` at
watcher.go:513), the others remain for Remove events. -/
def renameLoop : FMap → FMap → List Event × FMap × FMap
  | [], creates => ([], [], creates)
  | (p1, i1) :: rest, creates =>
    let (es1, creates1) := innerLoop p1 i1 creates
    let (es2, removesRem, creates2) := renameLoop rest creates1
    (es1 ++ es2,
     (if es1 = [] then [(p1, i1)] else []) ++ removesRem,
     creates2)

/-- The second loop of `getDiff` (watcher.go:481-495): walk the new
mapping; unknown paths become created candidates, known paths emit a
Write event when the modification time differs and a Chmod event when
the mode differs (both independent). -/
def scanNew (old : FMap) : FMap → List Event × FMap
  | [] => ([], [])
  | (path, info) :: rest =>
    let (es, cs) := scanNew old rest
    match fmLookup old path with
    | none => (es, (path, info) :: cs)
    | some oldInfo =>
      ((if oldInfo.modTime ≠ info.modTime then
          [{ op := .Write, path := path, oldPath := path, info := info }]
        else []) ++
       (if oldInfo.mode ≠ info.mode then
          [{ op := .Chmod, path := path, oldPath := path, info := info }]
        else []) ++ es, cs)

/-- The removed candidates of `getDiff` (watcher.go:474-478): stored
entries whose path is absent from the new mapping. -/
def removesOf (old new : FMap) : FMap :=
  old.filter (fun kv => (fmLookup new kv.1).isNone)

/-- The created candidates of `getDiff`. -/
def createsOf (old new : FMap) : FMap := (scanNew old new).2

/-- `getDiff` before the op filter (watcher.go:467-528): in-place events,
then correlation events, then residual Create events (empty `OldPath`),
then residual Remove events (`OldPath` = path, pre-removal metadata). -/
def getDiffAll (w : Watcher) (files : FMap) : List Event :=
  let removes := removesOf w.files files
  let (inPlace, creates) := scanNew w.files files
  let (corrEvents, removes2, creates2) := renameLoop removes creates
  inPlace ++ corrEvents ++
    creates2.map (fun kv =>
      { op := .Create, path := kv.1, oldPath := "", info := kv.2 }) ++
    removes2.map (fun kv =>
      { op := .Remove, path := kv.1, oldPath := kv.1, info := kv.2 })

/-- Embeds `(*Watcher).getDiff` (watcher.go:465-541): the computed events,
filtered by the op set when it is non-empty. -/
def getDiff (w : Watcher) (files : FMap) : List Event :=
  let res := getDiffAll w files
  if w.ops = [] then res
  else res.filter (fun e => opMem w.ops e.op)

/-- Embeds `(*Watcher).Diff` (watcher.go:455-463): retrieve the fresh
file list and diff it against the stored mapping.  The returned `Watcher`
makes the method's writes to its receiver (there are none on any
reachable path) explicit. -/
def Diff (w : Watcher) (fs : FS) : Except WErr (List Event) × Watcher :=
  match retrieveFileList w fs with
  | (.error e, w1) => (.error e, w1)
  | (.ok fileList, w1) => (.ok (getDiff w1 fileList), w1)

/-- Embeds `(*Watcher).WatchedFiles` (watcher.go:336-344): a copy of the
stored mapping. -/
def WatchedFiles (w : Watcher) : FMap := w.files

/-! ### Concrete instances used to evaluate the claims -/

/-- A plain metadata record with the given name, identity token,
modification time, mode and directory flag. -/
def plainInfo (nm : String) (idt mt md : Nat) (d : Bool) : FileInfo :=
  { name := nm, size := 0, mode := md, modTime := mt, isDir := d,
    ident := idt }

/-- Metadata of the vanished root `/gone`. -/
def goneInfo : FileInfo := plainInfo "gone" 1 0 420 true

/-- A watcher with the recursive root `/gone` registered. -/
def wGone : Watcher :=
  { New with names := [("/gone", true)], files := [("/gone", goneInfo)] }

/-- Metadata of the directory `/a/b`. -/
def bDirInfo : FileInfo := plainInfo "b" 1 0 420 true

/-- Metadata of the sibling file `/a/bc`. -/
def bcInfo : FileInfo := plainInfo "bc" 2 0 420 false

/-- A watcher storing the directory `/a/b` and its sibling `/a/bc`. -/
def wSib : Watcher :=
  { New with files := [("/a/b", bDirInfo), ("/a/bc", bcInfo)] }

/-- Metadata for the tree `/r`, `/r/d`, `/r/d/f`. -/
def rInfo : FileInfo := plainInfo "r" 1 0 420 true

/-- Metadata of the directory `/r/d`. -/
def dInfo : FileInfo := plainInfo "d" 2 0 420 true

/-- Metadata of the file `/r/d/f`. -/
def leafInfo : FileInfo := plainInfo "f" 3 0 420 false

/-- The filesystem `/r` ⊃ `/r/d` ⊃ `/r/d/f`. -/
def fsTree : FS := [("/r", .dir rInfo [.dir dInfo [.file leafInfo]])]

/-- A hook that skips exactly the directory `/r/d`. -/
def skipDHook : Hook := fun _ p => if p = "/r/d" then .skip else .ok

/-- A watcher whose only filter hook skips `/r/d`. -/
def wSkipD : Watcher := { New with ffh := [skipDHook] }

/-- A watcher that ignores `/r/d`. -/
def wIgnD : Watcher := { New with ignored := ["/r/d"] }

/-- Old metadata of `/f` (modTime 1, mode 420). -/
def fOld : FileInfo := plainInfo "f" 1 1 420 false

/-- New metadata of `/f` (modTime 2, mode 422). -/
def fNew : FileInfo := plainInfo "f" 1 2 422 false

/-- A watcher storing `/f` with its old metadata. -/
def wInPlace : Watcher := { New with files := [("/f", fOld)] }

/-- A fresh mapping in which `/f` changed modification time and mode. -/
def flNew : FMap := [("/f", fNew)]

/-- The Write event the diff of `wInPlace` against `flNew` produces. -/
def wrEvent : Event :=
  { op := .Write, path := "/f", oldPath := "/f", info := fNew }

/-- The Chmod event the diff of `wInPlace` against `flNew` produces. -/
def chEvent : Event :=
  { op := .Chmod, path := "/f", oldPath := "/f", info := fNew }

/-- A hook that skips every entry. -/
def skipAllHook : Hook := fun _ _ => .skip

/-- A watcher whose only filter hook skips everything. -/
def wSkipAll : Watcher := { New with ffh := [skipAllHook] }

/-- Metadata of the plain file `/x`. -/
def xInfo : FileInfo := plainInfo "x" 5 0 420 false

/-- A filesystem holding just the file `/x`. -/
def fsLeaf : FS := [("/x", .file xInfo)]

/-- Metadata of the directory `/p`. -/
def pInfo : FileInfo := plainInfo "p" 10 0 420 true

/-- Metadata of the visible child `/p/a`. -/
def aInfo : FileInfo := plainInfo "a" 11 0 420 false

/-- Metadata of the hidden child `/p/.h`. -/
def hInfo : FileInfo := plainInfo ".h" 12 0 420 false

/-- A filesystem with the directory `/p` holding a visible and a hidden
child. -/
def fsDir : FS := [("/p", .dir pInfo [.file aInfo, .file hInfo])]

/-- A watcher with the hidden-file policy enabled. -/
def wHid : Watcher := { New with ignoreHidden := true }

/-- Old metadata of `/d/a` (identity token 7). -/
def renOld : FileInfo := plainInfo "a" 7 1 420 false

/-- New metadata of `/d/b` (same identity token 7). -/
def renNew : FileInfo := plainInfo "b" 7 1 420 false

/-- A watcher storing `/d/a`. -/
def wRen : Watcher := { New with files := [("/d/a", renOld)] }

/-- A fresh mapping in which the file reappears as `/d/b`. -/
def flRen : FMap := [("/d/b", renNew)]

/-- A watcher with `/q` registered but no stored entry for it. -/
def wNoEntry : Watcher :=
  { New with names := [("/q", false)], files := [("/f", fOld)] }

/-! ### Helper lemmas -/

/-- A filter by a key predicate, read back through `fmLookup`. -/
theorem fmLookup_filter_key (q : String → Bool) (l : FMap) (k : String) :
    fmLookup (l.filter (fun kv => !(q kv.1))) k =
      if q k then none else fmLookup l k := by
  induction l with
  | nil => simp [fmLookup]
  | cons hd tl ih =>
    obtain ⟨k', v'⟩ := hd
    by_cases hk : k' = k
    · subst hk
      by_cases hq : q k' <;> simp [fmLookup, hq, ih]
    · by_cases hq : q k' <;> simp [fmLookup, hq, hk, ih]

/-- Reading an appended map: the left part wins. -/
theorem fmLookup_append (a b : FMap) (k : String) :
    fmLookup (a ++ b) k =
      match fmLookup a k with
      | some v => some v
      | none => fmLookup b k := by
  induction a with
  | nil => simp [fmLookup]
  | cons hd tl ih =>
    obtain ⟨k', v'⟩ := hd
    by_cases hk : k' = k <;> simp [fmLookup, hk, ih]

/-- Inserting a fresh key appends. -/
theorem fmInsert_fresh (m : FMap) (k : String) (v : FileInfo)
    (h : fmLookup m k = none) : fmInsert m k v = m ++ [(k, v)] := by
  induction m with
  | nil => rfl
  | cons hd tl ih =>
    obtain ⟨k', v'⟩ := hd
    by_cases hk : k' = k
    · simp [fmLookup, hk] at h
    · simp [fmLookup, hk] at h
      simp [fmInsert, hk, ih h]

/-- A path joined under a directory is never the directory itself. -/
theorem joinPath_ne (d f : String) : joinPath d f ≠ d := by
  intro h
  have hl := congrArg String.length h
  have h1 : ("/" : String).length = 1 := rfl
  simp [joinPath, String.length_append, h1] at hl
  omega

/-- The child loop of `list`, characterized: when no hook aborts, it
appends exactly the surviving children (in order) to the accumulator,
provided their paths are fresh and mutually distinct. -/
theorem listChildren_char (w : Watcher) (dir : String) :
    ∀ (cs : List FSNode) (acc : FMap),
    (∀ c ∈ cs, ∀ m,
      runHooks w.ffh c.info (joinPath dir c.info.name) ≠ .fail m) →
    ((cs.filter (childOK w dir)).map
      (fun c => joinPath dir c.info.name)).Nodup →
    (∀ c ∈ cs.filter (childOK w dir),
      fmLookup acc (joinPath dir c.info.name) = none) →
    listChildren w dir cs acc =
      .ok (acc ++ (cs.filter (childOK w dir)).map
        (fun c => (joinPath dir c.info.name, c.info))) := by
  intro cs
  induction cs with
  | nil => intro acc _ _ _; simp [listChildren]
  | cons c rest ih =>
    intro acc hna hnd hacc
    by_cases hex : (strMem w.ignored (joinPath dir c.info.name) ||
        (w.ignoreHidden && isHiddenFile (joinPath dir c.info.name))) = true
    · have hok : childOK w dir c = false := by
        simp [childOK, hex]
      have hstep : listChild w dir c = none := by
        simp [listChild, hex]
      rw [List.filter_cons_of_neg (by simp [hok])] at hnd hacc ⊢
      simp only [listChildren, hstep]
      exact ih acc (fun c2 h2 => hna c2 (by simp [h2])) hnd hacc
    · cases hr : runHooks w.ffh c.info (joinPath dir c.info.name) with
      | fail m => exact absurd hr (hna c (by simp) m)
      | skip =>
        have hok : childOK w dir c = false := by
          simp [childOK, hr]
        have hstep : listChild w dir c = none := by
          simp [listChild, hex, hr]
        rw [List.filter_cons_of_neg (by simp [hok])] at hnd hacc ⊢
        simp only [listChildren, hstep]
        exact ih acc (fun c2 h2 => hna c2 (by simp [h2])) hnd hacc
      | ok =>
        have hex2 : (strMem w.ignored (joinPath dir c.info.name) ||
            (w.ignoreHidden && isHiddenFile (joinPath dir c.info.name)))
              = false := eq_false_of_ne_true hex
        have hok : childOK w dir c = true := by
          simp [childOK, hr, hex2]
        have hstep : listChild w dir c =
            some (none, joinPath dir c.info.name, c.info) := by
          simp [listChild, hex, hr]
        rw [List.filter_cons_of_pos hok] at hnd hacc ⊢
        simp only [listChildren, hstep]
        have hacc0 : fmLookup acc (joinPath dir c.info.name) = none :=
          hacc c (by simp)
        rw [fmInsert_fresh acc _ _ hacc0]
        rw [ih (acc ++ [(joinPath dir c.info.name, c.info)])
          (fun c2 h2 => hna c2 (by simp [h2]))
          (by simpa using hnd.of_cons)
          ?_]
        · simp
        · intro c2 h2
          rw [fmLookup_append]
          rw [hacc c2 (by simp [h2])]
          have hne : joinPath dir c2.info.name ≠
              joinPath dir c.info.name := by
            simp only [List.map_cons, List.nodup_cons] at hnd
            intro he
            exact hnd.1 (he ▸ (List.mem_map_of_mem _ h2))
          simp [fmLookup, Ne.symm hne]

/-- `getDiffAll`, with its tuple lets spelled out. -/
theorem getDiffAll_eq (w : Watcher) (files : FMap) :
    getDiffAll w files =
      (scanNew w.files files).1 ++
      (renameLoop (removesOf w.files files)
        (scanNew w.files files).2).1 ++
      ((renameLoop (removesOf w.files files)
        (scanNew w.files files).2).2.2.map
        (fun kv =>
          { op := .Create, path := kv.1, oldPath := "", info := kv.2 })) ++
      ((renameLoop (removesOf w.files files)
        (scanNew w.files files).2).2.1.map
        (fun kv =>
          { op := .Remove, path := kv.1, oldPath := kv.1,
            info := kv.2 })) := rfl

/-- Events of the in-place scan are Write or Chmod events carrying the
path as old path and an entry of the new mapping as metadata. -/
theorem scanNew_events (old : FMap) :
    ∀ (new : FMap) (e : Event), e ∈ (scanNew old new).1 →
      (e.op = .Write ∨ e.op = .Chmod) ∧ e.oldPath = e.path ∧
      (e.path, e.info) ∈ new := by
  intro new
  induction new with
  | nil => intro e he; simp [scanNew] at he
  | cons hd tl ih =>
    intro e he
    obtain ⟨p, i⟩ := hd
    rcases hsc : scanNew old tl with ⟨es, cs⟩
    cases hl : fmLookup old p with
    | none =>
      simp [scanNew, hsc, hl] at he
      have := ih e (by rw [hsc]; exact he)
      exact ⟨this.1, this.2.1, by simp [this.2.2]⟩
    | some oi =>
      simp only [scanNew, hsc, hl] at he
      rw [List.mem_append, List.mem_append] at he
      rcases he with (he | he) | he
      · by_cases hmt : oi.modTime ≠ i.modTime <;> simp [hmt] at he
        subst he; exact ⟨Or.inl rfl, rfl, by simp⟩
      · by_cases hmd : oi.mode ≠ i.mode <;> simp [hmd] at he
        subst he; exact ⟨Or.inr rfl, rfl, by simp⟩
      · have := ih e (by rw [hsc]; exact he)
        exact ⟨this.1, this.2.1, by simp [this.2.2]⟩

/-- The created candidates are the new entries whose path is unknown to
the old mapping. -/
theorem scanNew_snd (old : FMap) :
    ∀ new : FMap, (scanNew old new).2 =
      new.filter (fun kv => (fmLookup old kv.1).isNone) := by
  intro new
  induction new with
  | nil => rfl
  | cons hd tl ih =>
    obtain ⟨p, i⟩ := hd
    rcases hsc : scanNew old tl with ⟨es, cs⟩
    rw [hsc] at ih
    cases hl : fmLookup old p with
    | none => simp [scanNew, hsc, hl, ih]
    | some oi => simp [scanNew, hsc, hl, ih]

/-- The inner correlation loop, characterized by filters: matched
created candidates become events, the rest survive. -/
theorem innerLoop_eq (p1 : String) (i1 : FileInfo) :
    ∀ C : FMap, innerLoop p1 i1 C =
      ((C.filter (fun c => sameFile i1 c.2)).map
        (fun c => mkCorr p1 i1 c.1),
       C.filter (fun c => !(sameFile i1 c.2))) := by
  intro C
  induction C with
  | nil => rfl
  | cons hd tl ih =>
    obtain ⟨p2, i2⟩ := hd
    by_cases hs : sameFile i1 i2 <;> simp [innerLoop, hs, ih]

/-- Correlation events are Rename or Move events whose old path and
metadata come from a removed candidate. -/
theorem renameLoop_events :
    ∀ (R C : FMap) (e : Event), e ∈ (renameLoop R C).1 →
      (e.op = .Rename ∨ e.op = .Move) ∧ (e.oldPath, e.info) ∈ R := by
  intro R
  induction R with
  | nil => intro C e he; simp [renameLoop] at he
  | cons hd tl ih =>
    intro C e he
    obtain ⟨p1, i1⟩ := hd
    rcases hrl : renameLoop tl (innerLoop p1 i1 C).2 with ⟨es2, rr, cr⟩
    simp only [renameLoop, innerLoop_eq, hrl] at he
    rw [List.mem_append] at he
    rcases he with he | he
    · simp only [List.mem_map] at he
      obtain ⟨c, _, rfl⟩ := he
      refine ⟨?_, by simp [mkCorr]⟩
      by_cases hdir : dirOf p1 = dirOf c.1 <;> simp [mkCorr, hdir]
    · have := ih _ e he
      exact ⟨this.1, by simp [this.2]⟩

/-- Removed candidates surviving the correlation come from the removed
candidates. -/
theorem renameLoop_removes_sub :
    ∀ (R C : FMap) (x : String × FileInfo),
      x ∈ (renameLoop R C).2.1 → x ∈ R := by
  intro R
  induction R with
  | nil => intro C x hx; simp [renameLoop] at hx
  | cons hd tl ih =>
    intro C x hx
    obtain ⟨p1, i1⟩ := hd
    rcases hrl : renameLoop tl (innerLoop p1 i1 C).2 with ⟨es2, rr, cr⟩
    simp only [renameLoop, hrl] at hx
    rw [List.mem_append] at hx
    rcases hx with hx | hx
    · by_cases hes : ((innerLoop p1 i1 C).1 = []) <;> simp [hes] at hx
      simp [hx]
    · have := ih _ x (by rw [hrl]; exact hx)
      simp [this]

/-- Created candidates surviving the correlation come from the created
candidates. -/
theorem renameLoop_creates_sub :
    ∀ (R C : FMap) (x : String × FileInfo),
      x ∈ (renameLoop R C).2.2 → x ∈ C := by
  intro R
  induction R with
  | nil => intro C x hx; simpa [renameLoop] using hx
  | cons hd tl ih =>
    intro C x hx
    obtain ⟨p1, i1⟩ := hd
    rcases hrl : renameLoop tl (innerLoop p1 i1 C).2 with ⟨es2, rr, cr⟩
    simp only [renameLoop, hrl] at hx
    have hx2 : x ∈ (innerLoop p1 i1 C).2 := ih _ x (by rw [hrl]; exact hx)
    rw [innerLoop_eq] at hx2
    exact List.mem_of_mem_filter hx2

/-- A filter with an everywhere-false predicate is empty. -/
theorem filter_none {α : Type} (p : α → Bool) :
    ∀ l : List α, (∀ a ∈ l, p a = false) → l.filter p = [] := by
  intro l
  induction l with
  | nil => intro _; rfl
  | cons hd tl ih =>
    intro h
    rw [List.filter_cons_of_neg (by simp [h hd (by simp)])]
    exact ih (fun a ha => h a (by simp [ha]))

/-- In a mapping with distinct keys, the entry of a key is unique. -/
theorem key_entry_unique {β : Type} (l : List (String × β))
    (hnd : (l.map Prod.fst).Nodup) (k : String) (a b : β)
    (ha : (k, a) ∈ l) (hb : (k, b) ∈ l) : a = b := by
  induction l with
  | nil => simp at ha
  | cons hd tl ih =>
    simp only [List.map_cons, List.nodup_cons] at hnd
    rcases List.mem_cons.mp ha with ha1 | ha2 <;>
      rcases List.mem_cons.mp hb with hb1 | hb2
    · exact congrArg Prod.snd (ha1.trans hb1.symm)
    · have hk : hd.1 = k := (congrArg Prod.fst ha1).symm
      exact absurd (List.mem_map_of_mem Prod.fst hb2) (hk ▸ hnd.1)
    · have hk : hd.1 = k := (congrArg Prod.fst hb1).symm
      exact absurd (List.mem_map_of_mem Prod.fst ha2) (hk ▸ hnd.1)
    · exact ih hnd.2 ha2 hb2

/-- The in-place scan, filtered at one path present in both mappings:
exactly one Write event when the timestamps differ (none otherwise) and
exactly one Chmod event when the modes differ (none otherwise). -/
theorem scanNew_filter_at (old : FMap) (p : String) (oi ni : FileInfo)
    (hold : fmLookup old p = some oi) :
    ∀ new : FMap, (new.map Prod.fst).Nodup → (p, ni) ∈ new →
    ((scanNew old new).1.filter
        (fun e => decide (e.op = Op.Write ∧ e.path = p)) =
      if oi.modTime ≠ ni.modTime then
        [⟨.Write, p, p, ni⟩] else []) ∧
    ((scanNew old new).1.filter
        (fun e => decide (e.op = Op.Chmod ∧ e.path = p)) =
      if oi.mode ≠ ni.mode then
        [⟨.Chmod, p, p, ni⟩] else []) := by
  intro new
  induction new with
  | nil => intro _ hmem; simp at hmem
  | cons hd tl ih =>
    intro hnd hmem
    obtain ⟨q, v⟩ := hd
    simp only [List.map_cons, List.nodup_cons] at hnd
    rcases hsc : scanNew old tl with ⟨es, cs⟩
    have hes : ∀ e ∈ es, e.path ≠ q := by
      intro e he hp
      have := (scanNew_events old tl e (by rw [hsc]; exact he)).2.2
      exact hnd.1 (hp ▸ List.mem_map_of_mem Prod.fst this)
    rcases List.mem_cons.mp hmem with heq | hmem2
    · have hq : q = p := (congrArg Prod.fst heq).symm
      have hv : v = ni := (congrArg Prod.snd heq).symm
      have hl2 : fmLookup old q = some oi := by rw [hq]; exact hold
      have hesW : es.filter
          (fun e => decide (e.op = Op.Write ∧ e.path = p)) = [] := by
        refine filter_none _ es (fun e he => ?_)
        have : e.path ≠ p := hq ▸ hes e he
        simp [this]
      have hesC : es.filter
          (fun e => decide (e.op = Op.Chmod ∧ e.path = p)) = [] := by
        refine filter_none _ es (fun e he => ?_)
        have : e.path ≠ p := hq ▸ hes e he
        simp [this]
      constructor
      · simp only [scanNew, hsc, hl2]
        rw [hq, hv, List.filter_append, List.filter_append, hesW]
        by_cases hmt : oi.modTime ≠ ni.modTime <;>
          by_cases hmd : oi.mode ≠ ni.mode <;>
            simp [hmt, hmd]
      · simp only [scanNew, hsc, hl2]
        rw [hq, hv, List.filter_append, List.filter_append, hesC]
        by_cases hmt : oi.modTime ≠ ni.modTime <;>
          by_cases hmd : oi.mode ≠ ni.mode <;>
            simp [hmt, hmd]
    · have hqp : q ≠ p := by
        intro hq
        exact hnd.1 (hq ▸ List.mem_map_of_mem Prod.fst hmem2)
      have ihx := ih hnd.2 hmem2
      rw [hsc] at ihx
      cases hl : fmLookup old q with
      | none =>
        refine ⟨?_, ?_⟩ <;> simp only [scanNew, hsc, hl]
        · exact ihx.1
        · exact ihx.2
      | some oiq =>
        have hw1 : (if oiq.modTime ≠ v.modTime then
            ([⟨.Write, q, q, v⟩] : List Event) else []).filter
              (fun e => decide (e.op = Op.Write ∧ e.path = p)) = [] := by
          by_cases hmt : oiq.modTime ≠ v.modTime <;> simp [hmt, hqp]
        have hw2 : (if oiq.mode ≠ v.mode then
            ([⟨.Chmod, q, q, v⟩] : List Event) else []).filter
              (fun e => decide (e.op = Op.Write ∧ e.path = p)) = [] := by
          by_cases hmd : oiq.mode ≠ v.mode <;> simp [hmd]
        have hc1 : (if oiq.modTime ≠ v.modTime then
            ([⟨.Write, q, q, v⟩] : List Event) else []).filter
              (fun e => decide (e.op = Op.Chmod ∧ e.path = p)) = [] := by
          by_cases hmt : oiq.modTime ≠ v.modTime <;> simp [hmt]
        have hc2 : (if oiq.mode ≠ v.mode then
            ([⟨.Chmod, q, q, v⟩] : List Event) else []).filter
              (fun e => decide (e.op = Op.Chmod ∧ e.path = p)) = [] := by
          by_cases hmd : oiq.mode ≠ v.mode <;> simp [hmd, hqp]
        refine ⟨?_, ?_⟩ <;> simp only [scanNew, hsc, hl] <;>
          rw [List.filter_append, List.filter_append]
        · rw [hw1, hw2]; simpa using ihx.1
        · rw [hc1, hc2]; simpa using ihx.2

/-- A filter with an everywhere-true predicate keeps everything. -/
theorem filter_all {α : Type} (p : α → Bool) :
    ∀ l : List α, (∀ a ∈ l, p a = true) → l.filter p = l := by
  intro l
  induction l with
  | nil => intro _; rfl
  | cons hd tl ih =>
    intro h
    rw [List.filter_cons_of_pos (h hd (by simp))]
    rw [ih (fun a ha => h a (by simp [ha]))]

/-- Filtering a duplicate-free list by a predicate that holds exactly at
one member picks out that member. -/
theorem filter_unique_entry {α : Type} (x : α) (pr : α → Bool) :
    ∀ l : List α, l.Nodup → x ∈ l →
    (∀ c ∈ l, (pr c = true ↔ c = x)) → l.filter pr = [x] := by
  intro l
  induction l with
  | nil => intro _ hx; simp at hx
  | cons c rest ih =>
    intro hnd hx hiff
    rw [List.nodup_cons] at hnd
    by_cases hcx : c = x
    · rw [List.filter_cons_of_pos ((hiff c (by simp)).mpr hcx)]
      rw [filter_none pr rest (fun a ha => ?_), hcx]
      cases hpa : pr a
      · rfl
      · have hax : a = x := (hiff a (by simp [ha])).mp hpa
        rw [hax, ← hcx] at ha
        exact absurd ha hnd.1
    · have hpc : pr c = false := by
        cases hpc : pr c
        · rfl
        · exact absurd ((hiff c (by simp)).mp hpc) hcx
      rw [List.filter_cons_of_neg (by simp [hpc])]
      have hx2 : x ∈ rest := by
        rcases List.mem_cons.mp hx with h1 | h2
        · exact absurd h1.symm hcx
        · exact h2
      exact ih hnd.2 hx2 (fun a ha => hiff a (by simp [ha]))

/-- The correlation loop does nothing when no removed candidate matches
any created candidate. -/
theorem renameLoop_no_match :
    ∀ (R C : FMap),
      (∀ r ∈ R, ∀ c ∈ C, sameFile r.2 c.2 = false) →
      renameLoop R C = ([], R, C) := by
  intro R
  induction R with
  | nil => intro C _; rfl
  | cons r0 R' ih =>
    intro C hnm
    obtain ⟨p0, i0⟩ := r0
    have hes : C.filter (fun c => sameFile i0 c.2) = [] :=
      filter_none _ C (fun c hc => hnm (p0, i0) (by simp) c hc)
    have hcall : C.filter (fun c => !(sameFile i0 c.2)) = C :=
      filter_all _ C (fun c hc => by
        rw [hnm (p0, i0) (by simp) c hc]; rfl)
    have ihx := ih C (fun r hr c hc => hnm r (by simp [hr]) c hc)
    simp [renameLoop, innerLoop_eq, hes, hcall, ihx]

/-- The correlation loop when exactly one removed and one created
candidate share an identity: it emits exactly the one correlation event
and consumes exactly those two candidates. -/
theorem renameLoop_unique_pair (rp cp : String) (ri ci : FileInfo) :
    ∀ (R C : FMap), R.Nodup → C.Nodup →
    (rp, ri) ∈ R → (cp, ci) ∈ C →
    (∀ r ∈ R, ∀ c ∈ C, sameFile r.2 c.2 = true →
      r = (rp, ri) ∧ c = (cp, ci)) →
    sameFile ri ci = true →
    renameLoop R C =
      ([mkCorr rp ri cp],
       R.filter (fun r => !(decide (r = (rp, ri)))),
       C.filter (fun c => !(sameFile ri c.2))) := by
  intro R
  induction R with
  | nil => intro C _ _ hr _ _ _; simp at hr
  | cons r0 R' ih =>
    intro C hndR hndC hrMem hcMem huniq hmatch
    obtain ⟨p0, i0⟩ := r0
    rw [List.nodup_cons] at hndR
    by_cases hr0 : (p0, i0) = (rp, ri)
    · rw [hr0] at hndR ⊢
      have hiff : ∀ c ∈ C, (sameFile ri c.2 = true ↔ c = (cp, ci)) := by
        intro c hc
        exact ⟨fun hs => (huniq (rp, ri) (hr0 ▸ List.mem_cons_self _ _)
            c hc hs).2,
          fun hce => by rw [hce]; exact hmatch⟩
      have hfiltPos : C.filter (fun c => sameFile ri c.2) = [(cp, ci)] :=
        filter_unique_entry (cp, ci) _ C hndC hcMem hiff
      have hnm : ∀ r ∈ R', ∀ c ∈ C.filter (fun c => !(sameFile ri c.2)),
          sameFile r.2 c.2 = false := by
        intro r hr c hc
        cases hs : sameFile r.2 c.2
        · rfl
        · have h1 := (huniq r (by simp [hr]) c
            (List.mem_of_mem_filter hc) hs).1
          exact absurd (h1 ▸ hr) hndR.1
      have hnomatch := renameLoop_no_match R' _ hnm
      have hfall : R'.filter (fun r => !(decide (r = (rp, ri)))) = R' := by
        refine filter_all _ R' (fun r hr => ?_)
        have hne : r ≠ (rp, ri) := fun hre => hndR.1 (hre ▸ hr)
        simp [hne]
      simp [renameLoop, innerLoop_eq, hfiltPos, hnomatch, hfall]
    · have hnm0 : ∀ c ∈ C, sameFile i0 c.2 = false := by
        intro c hc
        cases hs : sameFile i0 c.2
        · rfl
        · exact absurd (huniq (p0, i0) (by simp) c hc hs).1 hr0
      have hes1 : C.filter (fun c => sameFile i0 c.2) = [] :=
        filter_none _ C hnm0
      have hcall : C.filter (fun c => !(sameFile i0 c.2)) = C :=
        filter_all _ C (fun c hc => by rw [hnm0 c hc]; rfl)
      have hrMem2 : (rp, ri) ∈ R' := by
        rcases List.mem_cons.mp hrMem with h1 | h2
        · exact absurd h1.symm hr0
        · exact h2
      have ihx := ih C hndR.2 hndC hrMem2 hcMem
        (fun r hr c hc hs => huniq r (by simp [hr]) c hc hs) hmatch
      simp [renameLoop, innerLoop_eq, hes1, hcall, ihx, hr0]

/-- Events of `getDiff` are events of `getDiffAll`. -/
theorem getDiff_sub (w : Watcher) (files : FMap) (e : Event)
    (he : e ∈ getDiff w files) : e ∈ getDiffAll w files := by
  unfold getDiff at he
  by_cases hops : w.ops = []
  · simpa [hops] using he
  · rw [if_neg hops] at he
    exact List.mem_of_mem_filter he

/-- `retrieveGo` never writes to its receiver: the deregistration calls
in the Go source sit after `return` statements. -/
theorem retrieveGo_snd (w : Watcher) (fs : FS) :
    ∀ l acc, (retrieveGo w fs l acc).2 = w := by
  intro l
  induction l with
  | nil => intro acc; rfl
  | cons hd tl ih =>
    intro acc
    obtain ⟨name, recursive⟩ := hd
    simp only [retrieveGo]
    split
    · split
      · rfl
      · exact ih _
    · rfl
    · exact ih _

/-- The watcher returned by `Diff` is always the input watcher. -/
theorem diff_snd (w : Watcher) (fs : FS) : (Diff w fs).2 = w := by
  unfold Diff retrieveFileList
  have h := retrieveGo_snd w fs w.names []
  cases hr : retrieveGo w fs w.names [] with
  | mk r w1 =>
    rw [hr] at h
    cases r <;> simpa using h

/-! ### Claims -/

/-- C1 (code_bug): when a registered root has vanished, `Diff` surfaces
`ErrWatchedFileDeleted`, but the corrective deregistration demanded by
the spec never happens: the `w.RemoveRecursive(name)` / `w.Remove(name)`
statements at watcher.go:427 and watcher.go:439 are unreachable, placed
after the `return` at watcher.go:426/438.  Evaluated on a watcher whose
only root `/gone` is absent from the filesystem: the error is returned
and `/gone` is still registered afterwards. -/
theorem diff_vanished_root_error_but_still_registered :
    (Diff wGone []).1 = .error .watchedFileDeleted ∧
    nmLookup (Diff wGone []).2.names "/gone" = some true := by
  constructor <;> rfl

/-- C2 (confirmed): when exactly one removed and exactly one created
candidate share their identity token (`sameFile`), the diff emits
exactly one correlation event for that identity — a Rename when the two
paths share a parent directory, a Move otherwise, carrying the new path,
the old path and the pre-move metadata — and emits no Create event at
the created path and no Remove event at the removed path; both
candidates are consumed by that single correlation. -/
theorem getDiff_unique_identity_correlation (w : Watcher) (files : FMap)
    (rp cp : String) (ri ci : FileInfo) (hops : w.ops = [])
    (hndOld : (w.files.map Prod.fst).Nodup)
    (hndNew : (files.map Prod.fst).Nodup)
    (hrMem : (rp, ri) ∈ removesOf w.files files)
    (hcMem : (cp, ci) ∈ createsOf w.files files)
    (huniq : ∀ r ∈ removesOf w.files files,
      ∀ c ∈ createsOf w.files files,
      sameFile r.2 c.2 = true → r = (rp, ri) ∧ c = (cp, ci))
    (hmatch : sameFile ri ci = true) :
    ((getDiff w files).filter
        (fun e => decide (e.op = Op.Rename ∨ e.op = Op.Move)) =
      [mkCorr rp ri cp]) ∧
    mkCorr rp ri cp =
      ⟨if dirOf rp = dirOf cp then .Rename else .Move, cp, rp, ri⟩ ∧
    (∀ e ∈ getDiff w files, e.op = Op.Create → e.path ≠ cp) ∧
    (∀ e ∈ getDiff w files, e.op = Op.Remove → e.path ≠ rp) := by
  have hgd : getDiff w files = getDiffAll w files := by
    simp [getDiff, hops]
  have hRsub : List.Sublist (removesOf w.files files) w.files :=
    List.filter_sublist _
  have hCeq : createsOf w.files files =
      files.filter (fun kv => (fmLookup w.files kv.1).isNone) :=
    scanNew_snd w.files files
  have hCsub : List.Sublist (createsOf w.files files) files := by
    rw [hCeq]; exact List.filter_sublist _
  have hndRk : ((removesOf w.files files).map Prod.fst).Nodup :=
    hndOld.sublist (hRsub.map Prod.fst)
  have hndCk : ((createsOf w.files files).map Prod.fst).Nodup :=
    hndNew.sublist (hCsub.map Prod.fst)
  have hndR : (removesOf w.files files).Nodup := hndRk.of_map
  have hndC : (createsOf w.files files).Nodup := hndCk.of_map
  have hrl := renameLoop_unique_pair rp cp ri ci
    (removesOf w.files files) (createsOf w.files files)
    hndR hndC hrMem hcMem huniq hmatch
  have hrl2 : renameLoop (removesOf w.files files)
      (scanNew w.files files).2 =
      ([mkCorr rp ri cp],
       (removesOf w.files files).filter
         (fun r => !(decide (r = (rp, ri)))),
       (createsOf w.files files).filter
         (fun c => !(sameFile ri c.2))) := hrl
  have hinP : (scanNew w.files files).1.filter
      (fun e => decide (e.op = Op.Rename ∨ e.op = Op.Move)) = [] := by
    refine filter_none _ _ (fun e he => ?_)
    rcases (scanNew_events w.files files e he).1 with hop | hop <;>
      simp [hop]
  have hcorr : (([mkCorr rp ri cp] : List Event).filter
      (fun e => decide (e.op = Op.Rename ∨ e.op = Op.Move))) =
      [mkCorr rp ri cp] := by
    by_cases hdir : dirOf rp = dirOf cp <;> simp [mkCorr, hdir]
  have hcrP : (((createsOf w.files files).filter
      (fun c => !(sameFile ri c.2))).map
      (fun kv => (⟨.Create, kv.1, "", kv.2⟩ : Event))).filter
      (fun e => decide (e.op = Op.Rename ∨ e.op = Op.Move)) = [] := by
    refine filter_none _ _ (fun e he => ?_)
    simp only [List.mem_map] at he
    obtain ⟨kv, _, rfl⟩ := he
    simp
  have hrmP : (((removesOf w.files files).filter
      (fun r => !(decide (r = (rp, ri))))).map
      (fun kv => (⟨.Remove, kv.1, kv.1, kv.2⟩ : Event))).filter
      (fun e => decide (e.op = Op.Rename ∨ e.op = Op.Move)) = [] := by
    refine filter_none _ _ (fun e he => ?_)
    simp only [List.mem_map] at he
    obtain ⟨kv, _, rfl⟩ := he
    simp
  refine ⟨?_, rfl, ?_, ?_⟩
  · rw [hgd, getDiffAll_eq, hrl2]
    dsimp only
    rw [List.filter_append, List.filter_append, List.filter_append,
        hinP, hcorr, hcrP, hrmP]
    simp
  · intro e he hop
    have he2 := getDiff_sub w files e he
    rw [getDiffAll_eq, hrl2] at he2
    rw [List.mem_append, List.mem_append, List.mem_append] at he2
    rcases he2 with ((hin | hcorr) | hcr) | hrm
    · rcases (scanNew_events w.files files e hin).1 with h1 | h1 <;>
        rw [hop] at h1 <;> exact absurd h1 (by simp)
    · rcases List.mem_singleton.mp hcorr with rfl
      revert hop
      by_cases hdir : dirOf rp = dirOf cp <;> simp [mkCorr, hdir]
    · simp only [List.mem_map] at hcr
      obtain ⟨kv, hkv, rfl⟩ := hcr
      intro hpath
      have hkv2 := List.mem_filter.mp hkv
      have hkvC : kv ∈ createsOf w.files files := hkv2.1
      have hkvn : sameFile ri kv.2 = false := by
        have := hkv2.2
        simpa using this
      have hkveq : kv.2 = ci := by
        have : (cp, kv.2) ∈ createsOf w.files files := by
          have : kv = (cp, kv.2) := by
            rw [← hpath]
          rw [← this]; exact hkvC
        exact key_entry_unique _ hndCk cp kv.2 ci this hcMem
      rw [hkveq] at hkvn
      rw [hmatch] at hkvn
      exact absurd hkvn (by simp)
    · simp only [List.mem_map] at hrm
      obtain ⟨kv, hkv, rfl⟩ := hrm
      intro hpath
      exact absurd hop (by simp)
  · intro e he hop
    have he2 := getDiff_sub w files e he
    rw [getDiffAll_eq, hrl2] at he2
    rw [List.mem_append, List.mem_append, List.mem_append] at he2
    rcases he2 with ((hin | hcorr) | hcr) | hrm
    · rcases (scanNew_events w.files files e hin).1 with h1 | h1 <;>
        rw [hop] at h1 <;> exact absurd h1 (by simp)
    · rcases List.mem_singleton.mp hcorr with rfl
      revert hop
      by_cases hdir : dirOf rp = dirOf cp <;> simp [mkCorr, hdir]
    · simp only [List.mem_map] at hcr
      obtain ⟨kv, hkv, rfl⟩ := hcr
      intro hpath
      exact absurd hop (by simp)
    · simp only [List.mem_map] at hrm
      obtain ⟨kv, hkv, rfl⟩ := hrm
      intro hpath
      have hkv2 := List.mem_filter.mp hkv
      have hkvR : kv ∈ removesOf w.files files := hkv2.1
      have hkvne : kv ≠ (rp, ri) := by
        have := hkv2.2
        simpa using this
      have hkveq : kv.2 = ri := by
        have hmem2 : (rp, kv.2) ∈ removesOf w.files files := by
          have hkvp : kv = (rp, kv.2) := by
            rw [← hpath]
          rw [← hkvp]; exact hkvR
        exact key_entry_unique _ hndRk rp kv.2 ri hmem2 hrMem
      apply hkvne
      have hkvp : kv = (rp, kv.2) := by rw [← hpath]
      rw [hkvp, hkveq]

/-- C2 (witness): the unique-identity statement evaluated on the file
`/d/a` reappearing as `/d/b` (same identity token, same parent
directory): the rename is reported as the single correlation event. -/
theorem getDiff_unique_identity_correlation_witness :
    ((getDiff wRen flRen).filter
        (fun e => decide (e.op = Op.Rename ∨ e.op = Op.Move)) =
      [mkCorr "/d/a" renOld "/d/b"]) ∧
    mkCorr "/d/a" renOld "/d/b" =
      ⟨if dirOf "/d/a" = dirOf "/d/b" then .Rename else .Move,
        "/d/b", "/d/a", renOld⟩ ∧
    (∀ e ∈ getDiff wRen flRen, e.op = Op.Create → e.path ≠ "/d/b") ∧
    (∀ e ∈ getDiff wRen flRen, e.op = Op.Remove → e.path ≠ "/d/a") :=
  getDiff_unique_identity_correlation wRen flRen "/d/a" "/d/b"
    renOld renNew rfl (by decide) (by decide) (by decide) (by decide)
    (by decide) (by decide)

/-- C3 (counterexample): `RemoveRecursive` uses `strings.HasPrefix`, a
plain string prefix, so removing the directory `/a/b` also deletes the
unrelated sibling `/a/bc` — the stored mapping ends up empty, against
the claim that only `/a/b` and entries under it are deleted. -/
theorem removeRecursive_deletes_sibling :
    RemoveRecursive wSib "/a/b" = .ok { wSib with files := [] } := by
  rfl

/-- C3 (amended): for a stored directory `name`, `RemoveRecursive`
drops `name` from the registration set and deletes exactly the stored
entries whose key has `name` as a *string* prefix — including unrelated
siblings such as `/a/bc` when removing `/a/b`. -/
theorem removeRecursive_deletes_string_prefixed (w : Watcher)
    (name : String) (info : FileInfo)
    (hf : fmLookup w.files name = some info) (hd : info.isDir = true) :
    ∃ w', RemoveRecursive w name = .ok w' ∧
      w'.names = nmErase w.names name ∧
      ∀ k, fmLookup w'.files k =
        if strHasPfx name k then none else fmLookup w.files k := by
  have hstep : RemoveRecursive w name =
      .ok { w with names := nmErase w.names name,
                   files := w.files.filter
                     (fun kv => !(strHasPfx name kv.1)) } := by
    simp [RemoveRecursive, hf, hd]
  exact ⟨_, hstep, rfl,
    fun k => fmLookup_filter_key (fun s => strHasPfx name s) w.files k⟩

/-- C3 (witness): the amended statement evaluated on the watcher storing
`/a/b` and `/a/bc`. -/
theorem removeRecursive_deletes_string_prefixed_witness :
    ∃ w', RemoveRecursive wSib "/a/b" = .ok w' ∧
      w'.names = nmErase wSib.names "/a/b" ∧
      ∀ k, fmLookup w'.files k =
        if strHasPfx "/a/b" k then none else fmLookup wSib.files k :=
  removeRecursive_deletes_string_prefixed wSib "/a/b" bDirInfo
    (by decide) (by decide)

/-- C6 (confirmed): for a path present in both mappings, the diff holds
exactly one Write event iff the modification timestamps differ and,
independently, exactly one Chmod event iff the mode bits differ; a path
with neither change yields no in-place event. -/
theorem write_chmod_independent (w : Watcher) (files : FMap) (p : String)
    (oi ni : FileInfo) (hops : w.ops = [])
    (hnd : (files.map Prod.fst).Nodup)
    (hold : fmLookup w.files p = some oi) (hnew : (p, ni) ∈ files) :
    ((getDiff w files).filter
        (fun e => decide (e.op = Op.Write ∧ e.path = p)) =
      if oi.modTime ≠ ni.modTime then [⟨.Write, p, p, ni⟩] else []) ∧
    ((getDiff w files).filter
        (fun e => decide (e.op = Op.Chmod ∧ e.path = p)) =
      if oi.mode ≠ ni.mode then [⟨.Chmod, p, p, ni⟩] else []) := by
  have hgd : getDiff w files = getDiffAll w files := by
    simp [getDiff, hops]
  have hsf := scanNew_filter_at w.files p oi ni hold files hnd hnew
  have hcorrW : (renameLoop (removesOf w.files files)
      (scanNew w.files files).2).1.filter
        (fun e => decide (e.op = Op.Write ∧ e.path = p)) = [] := by
    refine filter_none _ _ (fun e he => ?_)
    rcases (renameLoop_events _ _ e he).1 with hop | hop <;> simp [hop]
  have hcorrC : (renameLoop (removesOf w.files files)
      (scanNew w.files files).2).1.filter
        (fun e => decide (e.op = Op.Chmod ∧ e.path = p)) = [] := by
    refine filter_none _ _ (fun e he => ?_)
    rcases (renameLoop_events _ _ e he).1 with hop | hop <;> simp [hop]
  have hcrW : ∀ pr : Event → Bool, (∀ kv : String × FileInfo,
      pr ⟨.Create, kv.1, "", kv.2⟩ = false) →
      ((renameLoop (removesOf w.files files)
        (scanNew w.files files).2).2.2.map
        (fun kv =>
          ({ op := .Create, path := kv.1, oldPath := "",
             info := kv.2 } : Event))).filter pr = [] := by
    intro pr hpr
    refine filter_none _ _ (fun e he => ?_)
    simp only [List.mem_map] at he
    obtain ⟨kv, _, rfl⟩ := he
    exact hpr kv
  have hrmW : ∀ pr : Event → Bool, (∀ kv : String × FileInfo,
      pr ⟨.Remove, kv.1, kv.1, kv.2⟩ = false) →
      ((renameLoop (removesOf w.files files)
        (scanNew w.files files).2).2.1.map
        (fun kv =>
          ({ op := .Remove, path := kv.1, oldPath := kv.1,
             info := kv.2 } : Event))).filter pr = [] := by
    intro pr hpr
    refine filter_none _ _ (fun e he => ?_)
    simp only [List.mem_map] at he
    obtain ⟨kv, _, rfl⟩ := he
    exact hpr kv
  rw [hgd, getDiffAll_eq]
  constructor
  · rw [List.filter_append, List.filter_append, List.filter_append]
    rw [hcorrW, hcrW _ (fun kv => by simp), hrmW _ (fun kv => by simp)]
    simpa using hsf.1
  · rw [List.filter_append, List.filter_append, List.filter_append]
    rw [hcorrC, hcrW _ (fun kv => by simp), hrmW _ (fun kv => by simp)]
    simpa using hsf.2

/-- C6 (witness): the Write/Chmod statement evaluated on `/f`, whose
timestamp and mode both changed: one Write and one Chmod event. -/
theorem write_chmod_independent_witness :
    ((getDiff wInPlace flNew).filter
        (fun e => decide (e.op = Op.Write ∧ e.path = "/f")) =
      if fOld.modTime ≠ fNew.modTime then
        [⟨.Write, "/f", "/f", fNew⟩] else []) ∧
    ((getDiff wInPlace flNew).filter
        (fun e => decide (e.op = Op.Chmod ∧ e.path = "/f")) =
      if fOld.mode ≠ fNew.mode then
        [⟨.Chmod, "/f", "/f", fNew⟩] else []) :=
  write_chmod_independent wInPlace flNew "/f" fOld fNew rfl
    (by decide) (by decide) (by decide)

/-- C7 (confirmed): with a non-empty op set installed by `FilterOps` the
diff result is exactly the computed events whose kind is in the set,
each unchanged; with an empty set (or none installed, `ops = []`) all
computed events are returned unfiltered. -/
theorem getDiff_op_filtering (w : Watcher) (files : FMap) :
    (w.ops ≠ [] → getDiff w files =
      (getDiffAll w files).filter (fun e => opMem w.ops e.op)) ∧
    (w.ops = [] → getDiff w files = getDiffAll w files) ∧
    (∀ l, (FilterOps w l).ops = l) := by
  refine ⟨fun h => ?_, fun h => ?_, fun l => rfl⟩
  · simp [getDiff, h]
  · simp [getDiff, h]

/-- C7 (witness): the op-filter statement evaluated with the filter set
`{Write}` on a mapping with one modified file. -/
theorem getDiff_op_filtering_witness :
    getDiff (FilterOps wInPlace [Op.Write]) flNew =
      (getDiffAll (FilterOps wInPlace [Op.Write]) flNew).filter
        (fun e => opMem (FilterOps wInPlace [Op.Write]).ops e.op) :=
  (getDiff_op_filtering (FilterOps wInPlace [Op.Write]) flNew).1
    (by decide)

/-- C8 (confirmed): a successful `Diff` leaves the engine state — stored
mapping, registration set and ignore set — unchanged; the freshly
observed mapping never replaces the stored one. -/
theorem diff_preserves_state (w : Watcher) (fs : FS) (ev : List Event)
    (_h : (Diff w fs).1 = .ok ev) :
    (Diff w fs).2.files = w.files ∧ (Diff w fs).2.names = w.names ∧
    (Diff w fs).2.ignored = w.ignored := by
  rw [diff_snd w fs]
  exact ⟨rfl, rfl, rfl⟩

/-- C8 (witness): a successful diff of the empty watcher against the
empty filesystem. -/
theorem diff_preserves_state_witness :
    (Diff New []).2.files = New.files ∧
    (Diff New []).2.names = New.names ∧
    (Diff New []).2.ignored = New.ignored :=
  diff_preserves_state New [] [] (by rfl)

/-- C4 (counterexample): during a recursive listing, a directory skipped
by a filter hook is *not* pruned: the `walkFn` closure returns `nil`
rather than `filepath.SkipDir` on a hook skip (watcher.go:223-224), so
the descendants are still visited.  With a hook skipping `/r/d`, the
descendant `/r/d/f` appears in the result (while `/r/d` itself does
not), refuting "none of its descendants appear and they are never
visited". -/
theorem listRecursive_hook_skip_does_not_prune :
    listRecursive wSkipD fsTree "/r" =
      .ok [("/r", rInfo), ("/r/d/f", leafInfo)] := by
  rfl

/-- C4 (amended): a directory excluded by the *ignore set or the
hidden-file policy* (with the hook chain accepting it) has its whole
subtree pruned — the walk adds nothing below it; a directory excluded by
a hook's skip signal is merely omitted itself, its descendants are still
visited. -/
theorem walkTree_ignored_or_hidden_dir_prunes (w : Watcher)
    (path : String) (info : FileInfo) (cs : List FSNode) (acc : FMap)
    (hh : runHooks w.ffh info path = .ok) (hdir : info.isDir = true)
    (hex : (strMem w.ignored path ||
      (w.ignoreHidden && isHiddenFile path)) = true) :
    walkTree w path (.dir info cs) acc = .ok acc := by
  unfold walkTree
  simp [walkFn, FSNode.info, hh, hex, hdir]

/-- C4 (witness): the pruning statement evaluated on the ignored
directory `/r/d` with its child `/r/d/f`. -/
theorem walkTree_ignored_or_hidden_dir_prunes_witness :
    walkTree wIgnD "/r/d" (.dir dInfo [.file leafInfo]) [("/r", rInfo)] =
      .ok [("/r", rInfo)] :=
  walkTree_ignored_or_hidden_dir_prunes wIgnD "/r/d" dInfo
    [.file leafInfo] [("/r", rInfo)] (by decide) (by decide) (by decide)

/-- C9 (counterexample): `Add` never consults the filter hooks for the
root itself (watcher.go:385-396 checks only the ignore set and the
hidden policy), so a path excluded by the hook part of the filtering
chain is still registered: with a hook that skips everything, adding the
file `/x` stores it and records it as a root — not a no-op. -/
theorem add_hook_skipped_root_still_added :
    runHooks wSkipAll.ffh xInfo "/x" = .skip ∧
    Add wSkipAll fsLeaf "/x" =
      .ok { wSkipAll with files := [("/x", xInfo)],
                          names := [("/x", false)] } := by
  constructor <;> rfl

/-- C9 (amended): shallow registration of a path that is in the ignore
set or hidden under the policy is a no-op (the hook chain is not
consulted for the root); otherwise, for a directory root, `list` yields
exactly the root plus its surviving immediate children — `N+1` entries
for `N` non-excluded children, none of their descendants — which `Add`
merges into the stored mapping, recording the root as non-recursive. -/
theorem add_shallow_characterization (w : Watcher) (fs : FS)
    (name : String) :
    ((strMem w.ignored name ||
        (w.ignoreHidden && isHiddenFile name)) = true →
      Add w fs name = .ok w) ∧
    (∀ info cs,
      (strMem w.ignored name ||
        (w.ignoreHidden && isHiddenFile name)) = false →
      statFS fs name = some (.dir info cs) →
      (∀ c ∈ cs, ∀ m,
        runHooks w.ffh c.info (joinPath name c.info.name) ≠ .fail m) →
      ((cs.filter (childOK w name)).map
        (fun c => joinPath name c.info.name)).Nodup →
      list w fs name = .ok ((name, info) ::
        (cs.filter (childOK w name)).map
          (fun c => (joinPath name c.info.name, c.info))) ∧
      Add w fs name = .ok { w with
        files := fmMerge w.files ((name, info) ::
          (cs.filter (childOK w name)).map
            (fun c => (joinPath name c.info.name, c.info))),
        names := nmInsert w.names name false } ∧
      ((name, info) :: (cs.filter (childOK w name)).map
        (fun c => (joinPath name c.info.name, c.info))).length =
        (cs.filter (childOK w name)).length + 1) := by
  constructor
  · intro hex
    simp [Add, hex]
  · intro info cs hex hstat hna hnd
    have hlist : list w fs name = .ok ((name, info) ::
        (cs.filter (childOK w name)).map
          (fun c => (joinPath name c.info.name, c.info))) := by
      have hacc : ∀ c ∈ cs.filter (childOK w name),
          fmLookup [(name, info)] (joinPath name c.info.name) = none := by
        intro c _
        simp [fmLookup, Ne.symm (joinPath_ne name c.info.name)]
      have := listChildren_char w name cs [(name, info)] hna hnd hacc
      simp [list, hstat, FSNode.info, this]
    refine ⟨hlist, ?_, by simp⟩
    simp [Add, hex, hlist]

/-- C9 (witness): the shallow-registration statement evaluated on a
hidden-ignoring watcher over the directory `/p` with one visible and one
hidden child: the listing is exactly `/p` and `/p/a`. -/
theorem add_shallow_characterization_witness :
    list wHid fsDir "/p" = .ok [("/p", pInfo), ("/p/a", aInfo)] ∧
    Add wHid fsDir "/p" = .ok { wHid with
      files := fmMerge wHid.files [("/p", pInfo), ("/p/a", aInfo)],
      names := nmInsert wHid.names "/p" false } := by
  have h := (add_shallow_characterization wHid fsDir "/p").2
    pInfo [.file aInfo, .file hInfo] (by decide) (by rfl)
    (by intro c hc m; fin_cases hc <;> simp [runHooks, wHid, New])
    (by decide)
  have he : ([FSNode.file aInfo, FSNode.file hInfo].filter
      (childOK wHid "/p")).map
        (fun c => (joinPath "/p" c.info.name, c.info)) =
      [("/p/a", aInfo)] := by decide
  exact ⟨by rw [h.1, he], by rw [h.2.1, he]⟩

/-- C5 (counterexample): `OldPath` is not empty for non-Rename/Move
events: a Write (and Chmod) event carries `OldPath` equal to the path —
watcher.go:489/493 construct `Event{Write, path, path, info}` — so for a
modified `/f` the diff holds a Write event with `OldPath = "/f" ≠ ""`
whose kind is neither Rename nor Move, refuting the claim. -/
theorem write_event_oldPath_not_empty :
    getDiff wInPlace flNew = [wrEvent, chEvent] ∧
    wrEvent.oldPath = "/f" ∧ wrEvent.op = .Write := by
  refine ⟨by rfl, rfl, rfl⟩

/-- C5 (amended): in every event of a diff, `OldPath` is empty exactly
for Create events; for Write/Chmod/Remove it equals the event's path,
and for Rename/Move it is the pre-move path.  The metadata is an entry
of the new mapping for Create/Write/Chmod (keyed by the path) and an
entry of the stored (old) mapping for Remove (keyed by the path) and
Rename/Move (keyed by the old path). -/
theorem event_field_shape (w : Watcher) (files : FMap) :
    ∀ e ∈ getDiff w files,
      (e.op = .Create → e.oldPath = "" ∧ (e.path, e.info) ∈ files) ∧
      ((e.op = .Write ∨ e.op = .Chmod) →
        e.oldPath = e.path ∧ (e.path, e.info) ∈ files) ∧
      (e.op = .Remove →
        e.oldPath = e.path ∧ (e.path, e.info) ∈ w.files) ∧
      ((e.op = .Rename ∨ e.op = .Move) →
        (e.oldPath, e.info) ∈ w.files) := by
  intro e he
  have he2 := getDiff_sub w files e he
  rw [getDiffAll_eq] at he2
  rw [List.mem_append, List.mem_append, List.mem_append] at he2
  rcases he2 with ((hin | hcorr) | hcr) | hrm
  · obtain ⟨hop, hold, hmem⟩ := scanNew_events w.files files e hin
    rcases hop with hop | hop <;>
      simp [hop, hold, hmem]
  · obtain ⟨hop, hmem⟩ := renameLoop_events _ _ e hcorr
    have hmem2 : (e.oldPath, e.info) ∈ w.files :=
      List.mem_of_mem_filter (hmem : _ ∈ removesOf w.files files)
    rcases hop with hop | hop <;> simp [hop, hmem2]
  · simp only [List.mem_map] at hcr
    obtain ⟨kv, hkv, rfl⟩ := hcr
    have hkv2 : kv ∈ (scanNew w.files files).2 :=
      renameLoop_creates_sub _ _ kv hkv
    rw [scanNew_snd] at hkv2
    have := List.mem_of_mem_filter hkv2
    simp [this]
  · simp only [List.mem_map] at hrm
    obtain ⟨kv, hkv, rfl⟩ := hrm
    have hkv2 : kv ∈ removesOf w.files files :=
      renameLoop_removes_sub _ _ kv hkv
    have := List.mem_of_mem_filter hkv2
    simp [this]

/-- C5 (witness): the field-shape statement evaluated at the Write event
of the modified `/f`. -/
theorem event_field_shape_witness :
    wrEvent.oldPath = wrEvent.path ∧
      (wrEvent.path, wrEvent.info) ∈ flNew :=
  (event_field_shape wInPlace flNew wrEvent (by decide)).2.1
    (Or.inl (by decide))

/-- C10 (confirmed): removing a path with no stored entry succeeds (both
shallowly and recursively), still drops the path from the registration
set, and leaves the stored mapping untouched. -/
theorem remove_missing_entry (w : Watcher) (name : String)
    (h : fmLookup w.files name = none) :
    Remove w name = .ok { w with names := nmErase w.names name } ∧
    RemoveRecursive w name =
      .ok { w with names := nmErase w.names name } := by
  constructor <;> simp [Remove, RemoveRecursive, h]

/-- C10 (witness): removal of the registered-but-unstored path `/q`. -/
theorem remove_missing_entry_witness :
    Remove wNoEntry "/q" =
      .ok { wNoEntry with names := nmErase wNoEntry.names "/q" } ∧
    RemoveRecursive wNoEntry "/q" =
      .ok { wNoEntry with names := nmErase wNoEntry.names "/q" } :=
  remove_missing_entry wNoEntry "/q" (by decide)

end Dirchanges
